import Mathlib

/-
Verification of the confidence-gated RAG pipeline of the AI-Robot-Guide
repository: confidence gate, orchestrator defer path, unanswered-query log,
proposal state machine, researcher deduplication, ingestion atomicity,
vector index upsert/search, embedding framing, and the chat handler's
fallback answer.  Scores are modelled as rationals; the comparisons the
source performs are exact order comparisons, so nothing is lost.
-/

namespace RAGGuide

/-- Decision of the confidence gate: answer directly, or defer with an
"I don't know" style response. -/
inductive Decision
  | ANSWER
  | DEFER
deriving DecidableEq

/-- Confidence threshold, from the design document's quoted source of
rag_orchestrator.py: CONFIDENCE_THRESHOLD = 0.45. -/
def CONFIDENCE_THRESHOLD : ℚ := 45 / 100

/-- Source logic (design document, answer_query):
max_score = scores[0] if scores else 0. -/
def max_score (scores : List ℚ) : ℚ :=
  match scores with
  | [] => 0
  | s :: _ => s

/-- The confidence check of answer_query: if max_score < threshold the
orchestrator defers, otherwise it answers.  The threshold is configurable
per the spec; the source's constant is CONFIDENCE_THRESHOLD. -/
def evaluate (threshold : ℚ) (scores : List ℚ) : Decision :=
  if max_score scores < threshold then Decision.DEFER else Decision.ANSWER

/-- True maximum of a score list (0 for the empty list, never used there). -/
def listMax (scores : List ℚ) : ℚ :=
  match scores with
  | [] => 0
  | s :: rest => rest.foldl max s

theorem foldl_max_of_le (s : ℚ) :
    ∀ l : List ℚ, (∀ x ∈ l, x ≤ s) → l.foldl max s = s := by
  intro l
  induction l with
  | nil => intro _; rfl
  | cons a t ih =>
    intro h
    have ha : a ≤ s := h a (List.mem_cons_self a t)
    have : max s a = s := max_eq_left ha
    simpa [List.foldl_cons, this] using ih fun x hx => h x (List.mem_cons_of_mem a hx)

/-- For a list sorted in non-increasing order, the head is the maximum. -/
theorem listMax_of_sorted (scores : List ℚ) (hne : scores ≠ [])
    (hsorted : List.Sorted (fun a b => b ≤ a) scores) :
    listMax scores = max_score scores := by
  match scores with
  | [] => exact absurd rfl hne
  | s :: rest =>
    have hall : ∀ x ∈ rest, x ≤ s := (List.sorted_cons.mp hsorted).1
    simpa [listMax, max_score] using foldl_max_of_le s rest hall

/-- C1: for every non-empty result list sorted in non-increasing score order
(the order the reranking step produces), the gate answers exactly when the
maximum similarity score is greater than or equal to the threshold, and
defers exactly when it is strictly below; a maximum exactly equal to the
threshold therefore yields ANSWER. -/
theorem evaluate_answers_iff_max_ge (threshold : ℚ) (scores : List ℚ)
    (hne : scores ≠ [])
    (hsorted : List.Sorted (fun a b => b ≤ a) scores) :
    (evaluate threshold scores = Decision.ANSWER ↔ threshold ≤ listMax scores) ∧
    (evaluate threshold scores = Decision.DEFER ↔ listMax scores < threshold) := by
  rw [listMax_of_sorted scores hne hsorted]
  unfold evaluate
  constructor
  · constructor
    · intro h
      by_contra hlt
      simp [not_le] at hlt
      simp [hlt] at h
    · intro h
      simp [not_lt.mpr h]
  · constructor
    · intro h
      by_contra hge
      simp [not_lt] at hge
      simp [not_lt.mpr hge] at h
    · intro h
      simp [h]

/-- Witness for C1 at the boundary: a single result scoring exactly 0.45
under the default threshold yields ANSWER. -/
theorem evaluate_answers_iff_max_ge_witness :
    evaluate CONFIDENCE_THRESHOLD [45 / 100] = Decision.ANSWER := by
  have h := evaluate_answers_iff_max_ge CONFIDENCE_THRESHOLD [45 / 100]
    (by simp) (List.sorted_singleton _)
  exact h.1.mpr (by norm_num [listMax, CONFIDENCE_THRESHOLD])

/-- C2 counterexample: the source computes max_score = 0 for the empty list
(not negative infinity), so the threshold value 0 makes the gate ANSWER on
the empty result set, contradicting the claim that no threshold value can
make it answer. -/
theorem evaluate_empty_zero_threshold_answers :
    evaluate 0 [] = Decision.ANSWER := by
  simp [evaluate, max_score]

/-- C2 amended: for every strictly positive threshold (in particular the
default 0.45) the gate defers on the empty result set, because the source
treats the empty set as max score 0. -/
theorem evaluate_empty_defers_of_pos (threshold : ℚ) (h : 0 < threshold) :
    evaluate threshold [] = Decision.DEFER := by
  simp [evaluate, max_score, h]

/-- Witness for the amended C2 at the default threshold. -/
theorem evaluate_empty_defers_witness :
    evaluate CONFIDENCE_THRESHOLD [] = Decision.DEFER :=
  evaluate_empty_defers_of_pos CONFIDENCE_THRESHOLD (by norm_num [CONFIDENCE_THRESHOLD])

/-- Status of an unanswered-query log entry. -/
inductive UStatus
  | OPEN
  | RESEARCHING
  | RESOLVED
deriving DecidableEq

/-- Entry of the unanswered_questions collection. -/
structure UnansweredEntry where
  query_text : String
  occurrence_count : Nat
  max_observed_score : ℚ
  status : UStatus
deriving DecidableEq

/-- Modelled from the spec: the implementation of analytics.log_unanswered
(the MongoDB upsert into the unanswered_questions collection) is not in the
repository; the design document only shows the call site.  Per the spec:
create an OPEN entry with occurrence_count 1 if the query is absent,
otherwise increment occurrence_count and raise max_observed_score when the
new score is higher. -/
def log_unanswered (log : List UnansweredEntry) (q : String) (score : ℚ) :
    List UnansweredEntry :=
  match log with
  | [] => [⟨q, 1, score, UStatus.OPEN⟩]
  | e :: rest =>
    if e.query_text = q then
      { e with occurrence_count := e.occurrence_count + 1,
               max_observed_score := max e.max_observed_score score } :: rest
    else
      e :: log_unanswered rest q score

/-- Result returned to the chat caller by the orchestrator. -/
structure AnswerResult where
  text : String
  deferred : Bool
deriving DecidableEq

/-- Fixed deferred response of the workflow diagram
("Say: ขอโทษค่ะ ไม่ทราบข้อมูลนี้"). -/
def DEFER_RESPONSE : String := "ขอโทษค่ะ ไม่ทราบข้อมูลนี้"

/-- Modelled from the spec: rag_orchestrator.py's answer_query is not in the
repository; the design document gives its confidence check
(max_score = scores[0] if scores else 0, defer and log when below the
threshold).  The answer-generation branch is a pluggable collaborator per
the spec. -/
def answer_query (generate : String → List ℚ → String) (threshold : ℚ)
    (log : List UnansweredEntry) (q : String) (scores : List ℚ) :
    AnswerResult × List UnansweredEntry :=
  match evaluate threshold scores with
  | Decision.DEFER => (⟨DEFER_RESPONSE, true⟩, log_unanswered log q (max_score scores))
  | Decision.ANSWER => (⟨generate q scores, false⟩, log)

theorem log_unanswered_absent (log : List UnansweredEntry) (q : String) (score : ℚ)
    (habs : ∀ e ∈ log, e.query_text ≠ q) :
    log_unanswered log q score = log ++ [⟨q, 1, score, UStatus.OPEN⟩] := by
  induction log with
  | nil => rfl
  | cons e rest ih =>
    have hne : e.query_text ≠ q := habs e (List.mem_cons_self e rest)
    simp only [log_unanswered, if_neg hne, List.cons_append, List.cons.injEq, true_and]
    exact ih fun x hx => habs x (List.mem_cons_of_mem e hx)

theorem log_unanswered_present (pre post : List UnansweredEntry)
    (e : UnansweredEntry) (q : String) (score : ℚ)
    (heq : e.query_text = q) (hpre : ∀ x ∈ pre, x.query_text ≠ q) :
    log_unanswered (pre ++ e :: post) q score =
      pre ++ { e with occurrence_count := e.occurrence_count + 1,
                      max_observed_score := max e.max_observed_score score } :: post := by
  induction pre with
  | nil => simp [log_unanswered, heq]
  | cons x rest ih =>
    have hne : x.query_text ≠ q := hpre x (List.mem_cons_self x rest)
    simp only [List.cons_append, log_unanswered, if_neg hne, List.cons.injEq, true_and]
    exact ih fun y hy => hpre y (List.mem_cons_of_mem x hy)

/-- C3: when every retrieved score is strictly below the threshold, the
orchestrator returns the fixed deferred response and records exactly one
entry for the query: if the query is absent it is created with
occurrence_count 1 and max_observed_score equal to the observed maximum
score, otherwise the matching entry has its occurrence_count incremented and
its max_observed_score updated only if the new score is higher. -/
theorem answer_query_defer_records (generate : String → List ℚ → String)
    (log : List UnansweredEntry) (q : String) (scores : List ℚ)
    (hne : scores ≠ [])
    (hsorted : List.Sorted (fun a b => b ≤ a) scores)
    (hlow : ∀ s ∈ scores, s < CONFIDENCE_THRESHOLD) :
    (answer_query generate CONFIDENCE_THRESHOLD log q scores).1 =
      ⟨DEFER_RESPONSE, true⟩ ∧
    (answer_query generate CONFIDENCE_THRESHOLD log q scores).2 =
      log_unanswered log q (listMax scores) ∧
    ((∀ e ∈ log, e.query_text ≠ q) →
      (answer_query generate CONFIDENCE_THRESHOLD log q scores).2 =
        log ++ [⟨q, 1, listMax scores, UStatus.OPEN⟩]) ∧
    (∀ pre e post, log = pre ++ e :: post → e.query_text = q →
      (∀ x ∈ pre, x.query_text ≠ q) →
      (answer_query generate CONFIDENCE_THRESHOLD log q scores).2 =
        pre ++ { e with occurrence_count := e.occurrence_count + 1,
                        max_observed_score :=
                          max e.max_observed_score (listMax scores) } :: post) := by
  have hmax : listMax scores = max_score scores := listMax_of_sorted scores hne hsorted
  have hhead : max_score scores < CONFIDENCE_THRESHOLD := by
    match scores with
    | [] => exact absurd rfl hne
    | s :: rest => exact hlow s (List.mem_cons_self s rest)
  have hdef : evaluate CONFIDENCE_THRESHOLD scores = Decision.DEFER := by
    simp [evaluate, hhead]
  refine ⟨?_, ?_, ?_, ?_⟩
  · simp [answer_query, hdef]
  · simp [answer_query, hdef, hmax]
  · intro habs
    simp only [answer_query, hdef]
    rw [hmax]
    exact log_unanswered_absent log q (max_score scores) habs
  · intro pre e post hsplit heq hpre
    simp only [answer_query, hdef]
    rw [hmax, hsplit]
    exact log_unanswered_present pre post e q (max_score scores) heq hpre

/-- Witness for C3 at the spec's scenario: an empty log and a single result
scoring 0.30 under the default threshold produce the deferred response and
one new OPEN entry with max_observed_score 0.30. -/
theorem answer_query_defer_records_witness :
    (answer_query (fun _ _ => "") CONFIDENCE_THRESHOLD []
        "ค่าเข้าวัดภูมินทร์เท่าไหร่" [3 / 10]).1 = ⟨DEFER_RESPONSE, true⟩ ∧
    (answer_query (fun _ _ => "") CONFIDENCE_THRESHOLD []
        "ค่าเข้าวัดภูมินทร์เท่าไหร่" [3 / 10]).2 =
      [⟨"ค่าเข้าวัดภูมินทร์เท่าไหร่", 1, 3 / 10, UStatus.OPEN⟩] := by
  have h := answer_query_defer_records (fun _ _ => "") []
    "ค่าเข้าวัดภูมินทร์เท่าไหร่" [3 / 10]
    (by simp) (List.sorted_singleton _)
    (by intro s hs; simp at hs; norm_num [hs, CONFIDENCE_THRESHOLD])
  refine ⟨h.1, ?_⟩
  have h3 := h.2.2.1 (by intro e he; simp at he)
  simpa [listMax] using h3

/-- Status of an AI_Suggestions proposal row
(PENDING / APPROVED / REJECTED / INGESTED). -/
inductive PStatus
  | PENDING
  | APPROVED
  | REJECTED
  | INGESTED
deriving DecidableEq, Fintype

/-- A proposal row: question, drafted answer, and status. -/
structure Proposal where
  query_text : String
  proposed_answer : String
  status : PStatus
deriving DecidableEq

/-- Error raised on a disallowed proposal status transition. -/
inductive InvalidTransitionError
  | invalid (src tgt : PStatus)
deriving DecidableEq

/-- Modelled from the spec: the proposal state-machine guard is not in the
repository (the design document only lists the statuses and the
APPROVED-to-INGESTED update); per the spec the only permitted transitions
are PENDING to APPROVED, PENDING to REJECTED and APPROVED to INGESTED, and
any other attempt raises InvalidTransitionError. -/
def apply_transition (src tgt : PStatus) : Except InvalidTransitionError PStatus :=
  match src, tgt with
  | PStatus.PENDING, PStatus.APPROVED => Except.ok PStatus.APPROVED
  | PStatus.PENDING, PStatus.REJECTED => Except.ok PStatus.REJECTED
  | PStatus.APPROVED, PStatus.INGESTED => Except.ok PStatus.INGESTED
  | s, t => Except.error (InvalidTransitionError.invalid s t)

/-- C5: the proposal state machine admits exactly the transitions
PENDING to APPROVED, PENDING to REJECTED and APPROVED to INGESTED; every
other attempt fails with InvalidTransitionError naming the pair, and
REJECTED and INGESTED are terminal. -/
theorem proposal_transitions_exact :
    (∀ s t : PStatus,
      (apply_transition s t = Except.ok t ↔
        (s = PStatus.PENDING ∧ t = PStatus.APPROVED) ∨
        (s = PStatus.PENDING ∧ t = PStatus.REJECTED) ∨
        (s = PStatus.APPROVED ∧ t = PStatus.INGESTED)) ∧
      (apply_transition s t = Except.ok t ∨
        apply_transition s t = Except.error (InvalidTransitionError.invalid s t))) ∧
    (∀ u : PStatus, apply_transition PStatus.REJECTED u =
      Except.error (InvalidTransitionError.invalid PStatus.REJECTED u)) ∧
    (∀ u : PStatus, apply_transition PStatus.INGESTED u =
      Except.error (InvalidTransitionError.invalid PStatus.INGESTED u)) := by
  refine ⟨?_, ?_, ?_⟩
  · intro s t
    cases s <;> cases t <;> simp [apply_transition]
  · intro u
    cases u <;> rfl
  · intro u
    cases u <;> rfl

/-- Payload stored with each vector, per qdrant_manager.py's description:
mongo_id and text_content. -/
structure Payload where
  source_id : String
  text_content : String
deriving DecidableEq

/-- One stored point of the vector collection. -/
structure IndexEntry where
  id : String
  vector : List ℚ
  payload : Payload
deriving DecidableEq

/-- The vector collection in insertion order, most recent last. -/
abbrev VectorIndex := List IndexEntry

/-- Modelled from the spec: qdrant_manager.py is absent from src/ (only its
in-repo description is present); per the spec and Qdrant semantics, upsert
replaces any existing entry with the same id and makes the entry the most
recently inserted one. -/
def upsert (idx : VectorIndex) (e : IndexEntry) : VectorIndex :=
  idx.filter (fun x => x.id ≠ e.id) ++ [e]

/-- Framing applied by upsert_location before embedding, per the
qdrant_manager.py description: the text is embedded as
"passage: " ++ text (E5 model format). -/
def passageFraming (text : String) : String := "passage: " ++ text

/-- Framing applied by search_similar before embedding the query, per the
qdrant_manager.py description: the query is embedded as
"query: " ++ text. -/
def queryFraming (text : String) : String := "query: " ++ text

/-- Modelled from the spec: knowledge_ingestion.py is absent from src/; the
design document gives only its step list.  Processing one proposal: if it is
APPROVED, attempt the vector-store write (tryUpsert returns none on
failure); only on success advance the status to INGESTED, otherwise leave
the proposal untouched for the next run. -/
def ingest_one (tryUpsert : VectorIndex → IndexEntry → Option VectorIndex)
    (mkEntry : Proposal → IndexEntry) (idx : VectorIndex) (p : Proposal) :
    VectorIndex × Proposal :=
  if p.status = PStatus.APPROVED then
    match tryUpsert idx (mkEntry p) with
    | some idx2 => (idx2, { p with status := PStatus.INGESTED })
    | none => (idx, p)
  else (idx, p)

/-- Modelled from the spec: IngestionService.run_once processes each
proposal in order through ingest_one, threading the index state. -/
def ingestion_run_once (tryUpsert : VectorIndex → IndexEntry → Option VectorIndex)
    (mkEntry : Proposal → IndexEntry) (idx : VectorIndex) :
    List Proposal → VectorIndex × List Proposal
  | [] => (idx, [])
  | p :: ps =>
    let r := ingest_one tryUpsert mkEntry idx p
    let rest := ingestion_run_once tryUpsert mkEntry r.1 ps
    (rest.1, r.2 :: rest.2)

/-- C4: ingestion is atomic per proposal.  For an APPROVED proposal, the
status after the step is INGESTED exactly when the vector-store upsert
succeeded; on failure the index and the proposal (still APPROVED) are
unchanged so a later run retries, and on success the index takes the upsert
result and the proposal becomes INGESTED.  run_once on the singleton batch
behaves identically. -/
theorem ingestion_atomic (tryUpsert : VectorIndex → IndexEntry → Option VectorIndex)
    (mkEntry : Proposal → IndexEntry) (idx : VectorIndex) (p : Proposal)
    (hp : p.status = PStatus.APPROVED) :
    ((ingest_one tryUpsert mkEntry idx p).2.status = PStatus.INGESTED ↔
      (tryUpsert idx (mkEntry p)).isSome = true) ∧
    (tryUpsert idx (mkEntry p) = none →
      ingest_one tryUpsert mkEntry idx p = (idx, p) ∧
      (ingest_one tryUpsert mkEntry idx p).2.status = PStatus.APPROVED ∧
      ingestion_run_once tryUpsert mkEntry idx [p] = (idx, [p])) ∧
    (∀ idx2, tryUpsert idx (mkEntry p) = some idx2 →
      ingest_one tryUpsert mkEntry idx p = (idx2, { p with status := PStatus.INGESTED }) ∧
      ingestion_run_once tryUpsert mkEntry idx [p] =
        (idx2, [{ p with status := PStatus.INGESTED }])) := by
  refine ⟨?_, ?_, ?_⟩
  · cases hcall : tryUpsert idx (mkEntry p) with
    | none => simp [ingest_one, hp, hcall]
    | some idx2 => simp [ingest_one, hp, hcall]
  · intro hcall
    refine ⟨?_, ?_, ?_⟩ <;> simp [ingestion_run_once, ingest_one, hp, hcall]
  · intro idx2 hcall
    refine ⟨?_, ?_⟩ <;> simp [ingestion_run_once, ingest_one, hp, hcall]

/-- Witness for C4: a concrete APPROVED proposal with a failing upsert stays
APPROVED and leaves the index unchanged. -/
theorem ingestion_atomic_witness :
    ingestion_run_once (fun _ _ => none) (fun p => ⟨p.query_text, [], ⟨"", p.proposed_answer⟩⟩)
      [] [⟨"q", "a", PStatus.APPROVED⟩] = ([], [⟨"q", "a", PStatus.APPROVED⟩]) := by
  have h := ingestion_atomic (fun _ _ => none)
    (fun p => ⟨p.query_text, [], ⟨"", p.proposed_answer⟩⟩)
    [] ⟨"q", "a", PStatus.APPROVED⟩ rfl
  exact (h.2.1 rfl).2.2

/-- A proposal is active when its status is neither REJECTED nor INGESTED. -/
def isActive (p : Proposal) : Bool :=
  decide (p.status ≠ PStatus.REJECTED ∧ p.status ≠ PStatus.INGESTED)

/-- Predicate selecting active proposals for a given query_text. -/
def activeFor (q : String) (p : Proposal) : Bool :=
  decide (p.query_text = q) && isActive p

/-- Predicate selecting all proposals for a given query_text. -/
def byQuery (q : String) (p : Proposal) : Bool :=
  decide (p.query_text = q)

/-- Whether an active proposal for the query_text exists. -/
def has_active (ps : List Proposal) (q : String) : Bool :=
  ps.any (activeFor q)

/-- Number of active proposals for the query_text. -/
def numActive (ps : List Proposal) (q : String) : Nat :=
  (ps.filter (activeFor q)).length

/-- Modelled from the spec: researcher_agent.py is absent from src/; the
design document says it fetches unique unanswered queries.  Per the spec,
run_once walks the open entries and writes a PENDING proposal for an OPEN
entry only when no active proposal for its query_text exists yet; otherwise
the entry is skipped.  draft is the external search-and-summarize
collaborator producing the proposed answer. -/
def researcher_run_once (draft : String → String) :
    List UnansweredEntry → List Proposal → List Proposal
  | [], ps => ps
  | e :: rest, ps =>
    if e.status = UStatus.OPEN ∧ has_active ps e.query_text = false then
      researcher_run_once draft rest
        (ps ++ [⟨e.query_text, draft e.query_text, PStatus.PENDING⟩])
    else
      researcher_run_once draft rest ps

theorem has_active_append (ps l : List Proposal) (q : String)
    (h : has_active ps q = true) : has_active (ps ++ l) q = true := by
  simp only [has_active, List.any_append, Bool.or_eq_true]
  exact Or.inl h

theorem has_active_false_numActive (ps : List Proposal) (q : String)
    (h : has_active ps q = false) : numActive ps q = 0 := by
  simp only [has_active, List.any_eq_false] at h
  simp only [numActive, List.length_eq_zero]
  exact List.filter_eq_nil_iff.mpr h

theorem numActive_append_one (ps : List Proposal) (p : Proposal) (q : String) :
    numActive (ps ++ [p]) q =
      numActive ps q + (if activeFor q p = true then 1 else 0) := by
  simp only [numActive, List.filter_append, List.length_append]
  by_cases h : activeFor q p = true <;> simp [h, List.filter]

theorem researcher_preserves_queries (draft : String → String) (q : String) :
    ∀ (entries : List UnansweredEntry) (ps : List Proposal),
      has_active ps q = true →
      (researcher_run_once draft entries ps).filter (byQuery q) =
        ps.filter (byQuery q) := by
  intro entries
  induction entries with
  | nil => intro ps _; rfl
  | cons e rest ih =>
    intro ps hact
    by_cases hguard : e.status = UStatus.OPEN ∧ has_active ps e.query_text = false
    · have hneq : e.query_text ≠ q := by
        intro hqe
        rw [hqe] at hguard
        rw [hguard.2] at hact
        exact Bool.false_ne_true hact
      have hstep :
          researcher_run_once draft (e :: rest) ps =
            researcher_run_once draft rest
              (ps ++ [⟨e.query_text, draft e.query_text, PStatus.PENDING⟩]) := by
        simp [researcher_run_once, hguard]
      rw [hstep,
        ih (ps ++ [⟨e.query_text, draft e.query_text, PStatus.PENDING⟩])
          (has_active_append ps _ q hact)]
      simp [List.filter_append, byQuery, hneq]
    · have hstep :
          researcher_run_once draft (e :: rest) ps =
            researcher_run_once draft rest ps := by
        simp [researcher_run_once, hguard]
      rw [hstep, ih ps hact]

theorem researcher_preserves_invariant (draft : String → String) :
    ∀ (entries : List UnansweredEntry) (ps : List Proposal),
      (∀ q, numActive ps q ≤ 1) →
      ∀ q, numActive (researcher_run_once draft entries ps) q ≤ 1 := by
  intro entries
  induction entries with
  | nil => intro ps hinv q; exact hinv q
  | cons e rest ih =>
    intro ps hinv q
    by_cases hguard : e.status = UStatus.OPEN ∧ has_active ps e.query_text = false
    · have hstep :
          researcher_run_once draft (e :: rest) ps =
            researcher_run_once draft rest
              (ps ++ [⟨e.query_text, draft e.query_text, PStatus.PENDING⟩]) := by
        simp [researcher_run_once, hguard]
      rw [hstep]
      refine ih (ps ++ [⟨e.query_text, draft e.query_text, PStatus.PENDING⟩]) ?_ q
      intro q2
      rw [numActive_append_one]
      by_cases hq : e.query_text = q2
      · have hzero : numActive ps q2 = 0 := by
          rw [← hq]
          exact has_active_false_numActive ps e.query_text hguard.2
        have hone : activeFor q2 ⟨e.query_text, draft e.query_text, PStatus.PENDING⟩ = true := by
          simp [activeFor, isActive, hq]
        simp [hzero, hone]
      · have hzero : activeFor q2 ⟨e.query_text, draft e.query_text, PStatus.PENDING⟩ = false := by
          simp [activeFor, hq]
        simp only [hzero]
        simpa using hinv q2
    · have hstep :
          researcher_run_once draft (e :: rest) ps =
            researcher_run_once draft rest ps := by
        simp [researcher_run_once, hguard]
      rw [hstep]
      exact ih ps hinv q

/-- C6: if every query_text has at most one active proposal, a researcher
run preserves that bound; and for every entry whose query_text already has
an active proposal, the run creates no proposal for that query_text at all
(the proposals for it are exactly the ones already present). -/
theorem researcher_dedup (draft : String → String) (entries : List UnansweredEntry)
    (ps : List Proposal)
    (hinv : ∀ q, numActive ps q ≤ 1) :
    (∀ q, numActive (researcher_run_once draft entries ps) q ≤ 1) ∧
    (∀ e ∈ entries, has_active ps e.query_text = true →
      (researcher_run_once draft entries ps).filter (byQuery e.query_text) =
        ps.filter (byQuery e.query_text)) := by
  refine ⟨researcher_preserves_invariant draft entries ps hinv, ?_⟩
  intro e _ hact
  exact researcher_preserves_queries draft e.query_text entries ps hact

/-- Witness for C6: one OPEN entry whose query already has a PENDING
proposal; the run leaves the proposals for that query unchanged. -/
theorem researcher_dedup_witness :
    numActive (researcher_run_once (fun _ => "d")
      [⟨"q1", 1, 0, UStatus.OPEN⟩] [⟨"q1", "a", PStatus.PENDING⟩]) "q1" ≤ 1 ∧
    (researcher_run_once (fun _ => "d")
      [⟨"q1", 1, 0, UStatus.OPEN⟩] [⟨"q1", "a", PStatus.PENDING⟩]).filter (byQuery "q1") =
      [⟨"q1", "a", PStatus.PENDING⟩].filter (byQuery "q1") := by
  have h := researcher_dedup (fun _ => "d")
    [⟨"q1", 1, 0, UStatus.OPEN⟩] [⟨"q1", "a", PStatus.PENDING⟩]
    (fun q => le_trans (List.length_filter_le _ _) (by simp))
  refine ⟨h.1 "q1", ?_⟩
  exact h.2 ⟨"q1", 1, 0, UStatus.OPEN⟩ (List.mem_singleton_self _)
    (by simp [has_active, activeFor, isActive])

/-- A search hit: id, payload, similarity score, and the insertion rank of
the underlying entry (larger rank = more recently inserted). -/
structure ScoredHit where
  id : String
  payload : Payload
  similarity_score : ℚ
  insertion_rank : Nat
deriving DecidableEq

/-- Score every stored entry against the query vector, tagging each with its
insertion rank starting at n. -/
def scoreHits (sim : List ℚ → List ℚ → ℚ) (qv : List ℚ) :
    VectorIndex → Nat → List ScoredHit
  | [], _ => []
  | e :: rest, n => ⟨e.id, e.payload, sim qv e.vector, n⟩ :: scoreHits sim qv rest (n + 1)

/-- Result order of search_similar: higher score first; on equal scores the
more recently inserted entry first. -/
def hitLE (a b : ScoredHit) : Prop :=
  b.similarity_score < a.similarity_score ∨
    (a.similarity_score = b.similarity_score ∧ b.insertion_rank ≤ a.insertion_rank)

instance : DecidableRel hitLE := fun a b => by
  unfold hitLE
  infer_instance

instance : IsTotal ScoredHit hitLE := by
  refine ⟨fun a b => ?_⟩
  unfold hitLE
  rcases lt_trichotomy a.similarity_score b.similarity_score with h | h | h
  · exact Or.inr (Or.inl h)
  · rcases le_total a.insertion_rank b.insertion_rank with hr | hr
    · exact Or.inr (Or.inr ⟨h.symm, hr⟩)
    · exact Or.inl (Or.inr ⟨h, hr⟩)
  · exact Or.inl (Or.inl h)

instance : IsTrans ScoredHit hitLE := by
  refine ⟨fun a b c hab hbc => ?_⟩
  unfold hitLE at hab hbc ⊢
  rcases hab with h1 | h1 <;> rcases hbc with h2 | h2
  · exact Or.inl (h2.trans h1)
  · exact Or.inl (by rw [← h2.1]; exact h1)
  · exact Or.inl (by rw [h1.1]; exact h2)
  · exact Or.inr ⟨h1.1.trans h2.1, h2.2.trans h1.2⟩

/-- Modelled from the spec: search_similar of qdrant_manager.py is absent
from src/ (only its in-repo description is present); per the spec it returns
up to k hits sorted descending by similarity score with ties broken by
insertion recency, most recent first.  The similarity function is a
parameter (the source uses cosine similarity on the embedded query). -/
def search_similar (sim : List ℚ → List ℚ → ℚ) (idx : VectorIndex)
    (qv : List ℚ) (k : Nat) : List ScoredHit :=
  (List.insertionSort hitLE (scoreHits sim qv idx 0)).take k

/-- Modelled from the spec: upsert_location of qdrant_manager.py takes a
mongo_id and a description, embeds "passage: " ++ description, and stores
the point with payload (mongo_id, text_content). -/
def upsert_location (embed : String → List ℚ) (idx : VectorIndex)
    (mongo_id description : String) : VectorIndex :=
  upsert idx ⟨mongo_id, embed (passageFraming description), ⟨mongo_id, description⟩⟩

/-- Modelled from the spec: the query path of search_similar embeds
"query: " ++ text and searches with the resulting vector. -/
def search_query (embed : String → List ℚ) (sim : List ℚ → List ℚ → ℚ)
    (idx : VectorIndex) (text : String) (k : Nat) : List ScoredHit :=
  search_similar sim idx (embed (queryFraming text)) k

theorem scoreHits_rank_ge (sim : List ℚ → List ℚ → ℚ) (qv : List ℚ) :
    ∀ (idx : VectorIndex) (n : Nat), ∀ h ∈ scoreHits sim qv idx n,
      n ≤ h.insertion_rank := by
  intro idx
  induction idx with
  | nil => intro n h hmem; simp [scoreHits] at hmem
  | cons e rest ih =>
    intro n h hmem
    rcases (List.mem_cons).mp hmem with heq | htail
    · subst heq; exact le_refl n
    · exact le_trans (Nat.le_succ n) (ih (n + 1) h htail)

theorem scoreHits_ranks_lt (sim : List ℚ → List ℚ → ℚ) (qv : List ℚ) :
    ∀ (idx : VectorIndex) (n : Nat),
      List.Pairwise (fun a b : ScoredHit => a.insertion_rank < b.insertion_rank)
        (scoreHits sim qv idx n) := by
  intro idx
  induction idx with
  | nil => intro n; simp [scoreHits]
  | cons e rest ih =>
    intro n
    refine List.pairwise_cons.mpr ⟨?_, ih (n + 1)⟩
    intro b hb
    exact lt_of_lt_of_le (Nat.lt_succ_self n) (scoreHits_rank_ge sim qv rest (n + 1) b hb)

/-- C9: search returns at most k hits, sorted in non-increasing order of
similarity score, and among hits of equal score the more recently inserted
one (larger insertion rank) comes first. -/
theorem search_similar_ordered (sim : List ℚ → List ℚ → ℚ) (idx : VectorIndex)
    (qv : List ℚ) (k : Nat) :
    (search_similar sim idx qv k).length ≤ k ∧
    List.Pairwise (fun a b : ScoredHit => b.similarity_score ≤ a.similarity_score)
      (search_similar sim idx qv k) ∧
    List.Pairwise (fun a b : ScoredHit =>
        a.similarity_score = b.similarity_score →
          b.insertion_rank < a.insertion_rank)
      (search_similar sim idx qv k) := by
  have hsorted : List.Pairwise hitLE (List.insertionSort hitLE (scoreHits sim qv idx 0)) :=
    List.sorted_insertionSort hitLE (scoreHits sim qv idx 0)
  have hperm := List.perm_insertionSort hitLE (scoreHits sim qv idx 0)
  have hsymm : ∀ a b : ScoredHit,
      a.insertion_rank ≠ b.insertion_rank → b.insertion_rank ≠ a.insertion_rank :=
    fun _ _ h => h.symm
  have hne : List.Pairwise (fun a b : ScoredHit => a.insertion_rank ≠ b.insertion_rank)
      (List.insertionSort hitLE (scoreHits sim qv idx 0)) := by
    refine (hperm.pairwise_iff fun hab => hsymm _ _ hab).mpr ?_
    exact (scoreHits_ranks_lt sim qv idx 0).imp fun h => Nat.ne_of_lt h
  have htake : List.Sublist ((List.insertionSort hitLE (scoreHits sim qv idx 0)).take k)
      (List.insertionSort hitLE (scoreHits sim qv idx 0)) := List.take_sublist k _
  have hsorted_take : List.Pairwise hitLE (search_similar sim idx qv k) :=
    hsorted.sublist htake
  have hne_take : List.Pairwise (fun a b : ScoredHit => a.insertion_rank ≠ b.insertion_rank)
      (search_similar sim idx qv k) := hne.sublist htake
  refine ⟨by simp [search_similar], ?_, ?_⟩
  · refine hsorted_take.imp fun h => ?_
    rcases h with h | h
    · exact le_of_lt h
    · exact le_of_eq h.1.symm
  · refine (hsorted_take.and hne_take).imp fun h heq => ?_
    rcases h.1 with hlt | hle
    · rw [heq] at hlt
      exact absurd hlt (lt_irrefl _)
    · exact lt_of_le_of_ne hle.2 (fun hc => h.2 hc.symm)

/-- C7: upsert is idempotent and replaces rather than duplicates.  A second
upsert with identical arguments leaves the index state unchanged, the index
holds exactly one entry with that id afterwards, and every search observes
the same results. -/
theorem upsert_idempotent (idx : VectorIndex) (e : IndexEntry) :
    upsert (upsert idx e) e = upsert idx e ∧
    (upsert (upsert idx e) e).filter (fun x => x.id = e.id) = [e] ∧
    (∀ (sim : List ℚ → List ℚ → ℚ) (qv : List ℚ) (k : Nat),
      search_similar sim (upsert (upsert idx e) e) qv k =
        search_similar sim (upsert idx e) qv k) := by
  have hbase : upsert (upsert idx e) e = upsert idx e := by
    simp [upsert, List.filter_append, List.filter_filter]
  refine ⟨hbase, ?_, ?_⟩
  · rw [hbase]
    have hnone : (idx.filter (fun x => decide (x.id ≠ e.id))).filter
        (fun x => decide (x.id = e.id)) = [] := by
      refine List.filter_eq_nil_iff.mpr ?_
      intro x hx
      have hxne : x.id ≠ e.id := by
        have := List.of_mem_filter hx
        simpa using this
      simp [hxne]
    simp [upsert, List.filter_append, hnone]
  · intro sim qv k
    rw [hbase]

/-- C8: the indexing path embeds "passage: " ++ text and the query path
embeds "query: " ++ text; the two embedding inputs are distinct for every
text.  upsert_location and search_query expose the exact strings handed to
the embedding model. -/
theorem framing_modes_distinct :
    ∀ text : String,
      passageFraming text = "passage: " ++ text ∧
      queryFraming text = "query: " ++ text ∧
      passageFraming text ≠ queryFraming text ∧
      (∀ (embed : String → List ℚ) (idx : VectorIndex) (mongo_id description : String),
        upsert_location embed idx mongo_id description =
          upsert idx ⟨mongo_id, embed (passageFraming description),
            ⟨mongo_id, description⟩⟩) ∧
      (∀ (embed : String → List ℚ) (sim : List ℚ → List ℚ → ℚ)
          (idx : VectorIndex) (k : Nat),
        search_query embed sim idx text k =
          search_similar sim idx (embed (queryFraming text)) k) := by
  intro text
  refine ⟨rfl, rfl, ?_, fun _ _ _ _ => rfl, fun _ _ _ _ => rfl⟩
  intro hcontra
  have hlen : (passageFraming text).length = (queryFraming text).length := by
    rw [hcontra]
  rw [passageFraming, queryFraming, String.length_append, String.length_append] at hlen
  have h9 : ("passage: " : String).length = 9 := rfl
  have h7 : ("query: " : String).length = 7 := rfl
  rw [h9, h7] at hlen
  omega

/-- A JavaScript value as seen after JSON.parse (arrays and objects are
kept opaque; only truthiness and string identity matter here). -/
inductive JsValue
  | jnull
  | jbool (b : Bool)
  | jnum (q : ℚ)
  | jstr (s : String)
  | jarr
  | jobj
deriving DecidableEq

/-- JavaScript truthiness of a parsed JSON value: null, false, 0 and the
empty string are falsy; arrays and objects are always truthy. -/
def jsTruthy : JsValue → Bool
  | JsValue.jnull => false
  | JsValue.jbool b => b
  | JsValue.jnum q => decide (q ≠ 0)
  | JsValue.jstr s => decide (s ≠ "")
  | JsValue.jarr => true
  | JsValue.jobj => true

/-- Fallback apology of chat.js shown when the payload has no truthy
answer field. -/
def FALLBACK_ANSWER : String := "ขออภัยค่ะ ไม่เข้าใจคำถาม"

/-- The text branch of websocket.onmessage in chat.js passes
data.answer || fallback to displayMessage; answer is none when the parsed
payload lacks the field (property access yields undefined). -/
def displayedAnswer (answer : Option JsValue) : JsValue :=
  match answer with
  | some v => if jsTruthy v then v else JsValue.jstr FALLBACK_ANSWER
  | none => JsValue.jstr FALLBACK_ANSWER

/-- C10: when the parsed payload lacks a truthy answer field the handler
displays the fixed fallback apology, never an empty message; a truthy
answer (in particular any non-empty string) is displayed verbatim. -/
theorem onmessage_fallback :
    ∀ answer : Option JsValue,
      ((∀ v, answer = some v → jsTruthy v = false) →
        displayedAnswer answer = JsValue.jstr FALLBACK_ANSWER) ∧
      (∀ v, answer = some v → jsTruthy v = true → displayedAnswer answer = v) := by
  intro answer
  cases answer with
  | none => exact ⟨fun _ => rfl, fun v hv => by cases hv⟩
  | some v =>
    refine ⟨fun hfalse => ?_, fun w hw htrue => ?_⟩
    · have hv : jsTruthy v = false := hfalse v rfl
      simp [displayedAnswer, hv]
    · cases hw
      simp [displayedAnswer, htrue]

/-- Witness for C10: an empty-string answer yields the fallback apology and
a non-empty Thai answer is displayed verbatim. -/
theorem onmessage_fallback_witness :
    displayedAnswer (some (JsValue.jstr "")) = JsValue.jstr FALLBACK_ANSWER ∧
    displayedAnswer (some (JsValue.jstr "สวัสดีค่ะ")) = JsValue.jstr "สวัสดีค่ะ" := by
  constructor
  · exact (onmessage_fallback (some (JsValue.jstr ""))).1
      (fun v hv => by cases hv; rfl)
  · exact (onmessage_fallback (some (JsValue.jstr "สวัสดีค่ะ"))).2
      (JsValue.jstr "สวัสดีค่ะ") rfl (by decide)

end RAGGuide
